import Mathlib

/-!
Shallow embedding of the terminal-poker hand evaluator (src/card.rs,
src/hand.rs, src/hand_rank.rs, src/lib.rs) and proofs about it.

Machine integers: the Rust code works on u32/u16/usize.  All values built by
the card encoder fit far below 2 to the 32, so they are modelled as plain Nat;
the one place where a u32 multiplication could wrap (the prime product in
HandRank::compute) is modelled with an explicit reduction modulo 2 ^ 32.

The crate declares a module lookup_tables (FLUSHES, UNIQUES, PRODUCTS,
VALUES) whose source is precomputed external data and is not part of the
source tree; it is abstracted as a structure of total functions (see Tables
below), and properties that depend on its shape carry the invariants stated
in the specification as hypotheses.

Rust panics (unreachable decode branches, the binary-search no-match panic,
index-out-of-bounds, usize underflow) are modelled as explicit non-value
outcomes (Option none, or dedicated SearchResult constructors).
-/

/-- The thirteen card ranks, in the declaration order of src/card.rs. -/
inductive Rank where
  | Ace
  | King
  | Queen
  | Jack
  | Ten
  | Nine
  | Eight
  | Seven
  | Six
  | Five
  | Four
  | Three
  | Two
deriving DecidableEq

/-- The four suits, in the declaration order of src/card.rs. -/
inductive Suit where
  | Hearts
  | Diamonds
  | Spades
  | Clubs
deriving DecidableEq

/-- Rank::prime_encoding from src/card.rs: deuce is 2, trey is 3, ..., ace is 41. -/
def Rank.prime_encoding : Rank → Nat
  | Rank.Ace => 41
  | Rank.King => 37
  | Rank.Queen => 31
  | Rank.Jack => 29
  | Rank.Ten => 23
  | Rank.Nine => 19
  | Rank.Eight => 17
  | Rank.Seven => 13
  | Rank.Six => 11
  | Rank.Five => 7
  | Rank.Four => 5
  | Rank.Three => 3
  | Rank.Two => 2

/-- Rank::order_encoding from src/card.rs: deuce is 0, trey is 1, ..., ace is 12. -/
def Rank.order_encoding : Rank → Nat
  | Rank.Ace => 12
  | Rank.King => 11
  | Rank.Queen => 10
  | Rank.Jack => 9
  | Rank.Ten => 8
  | Rank.Nine => 7
  | Rank.Eight => 6
  | Rank.Seven => 5
  | Rank.Six => 4
  | Rank.Five => 3
  | Rank.Four => 2
  | Rank.Three => 1
  | Rank.Two => 0

/-- A Card is a packed u32 (struct Card(u32) in src/card.rs); modelled as Nat,
all encoder-produced values being below 2 ^ 29. -/
abbrev Card := Nat

/-- The suit_bits match inside Card::new in src/card.rs. -/
def Card.suit_bits : Suit → Nat
  | Suit.Spades => 0x1000
  | Suit.Hearts => 0x2000
  | Suit.Diamonds => 0x4000
  | Suit.Clubs => 0x8000

/-- Card::new from src/card.rs: base | order << 8 | suit_bits | prime. -/
def Card.new (rank : Rank) (suit : Suit) : Card :=
  let prime := rank.prime_encoding
  let order := rank.order_encoding
  let base := 1 <<< (16 + order)
  base ||| (order <<< 8) ||| Card.suit_bits suit ||| prime

/-- Card::as_int from src/card.rs: the raw packed integer. -/
def Card.as_int (c : Card) : Nat := c

/-- Card::suit from src/card.rs.  The source's unreachable branch (a panic)
is modelled as none. -/
def Card.suit (c : Card) : Option Suit :=
  let bits := Card.as_int c &&& 0xF000
  if bits = 0x1000 then some Suit.Spades
  else if bits = 0x2000 then some Suit.Hearts
  else if bits = 0x4000 then some Suit.Diamonds
  else if bits = 0x8000 then some Suit.Clubs
  else none

/-- Card::rank from src/card.rs.  The source's unreachable branch (a panic)
is modelled as none. -/
def Card.rank (c : Card) : Option Rank :=
  let bits := (Card.as_int c &&& 0x0F00) >>> 8
  if bits = 0 then some Rank.Two
  else if bits = 1 then some Rank.Three
  else if bits = 2 then some Rank.Four
  else if bits = 3 then some Rank.Five
  else if bits = 4 then some Rank.Six
  else if bits = 5 then some Rank.Seven
  else if bits = 6 then some Rank.Eight
  else if bits = 7 then some Rank.Nine
  else if bits = 8 then some Rank.Ten
  else if bits = 9 then some Rank.Jack
  else if bits = 10 then some Rank.Queen
  else if bits = 11 then some Rank.King
  else if bits = 12 then some Rank.Ace
  else none

/-- enum HandRank from src/hand_rank.rs: a category tag carrying its numeric
value; the numeric type is the source's u32 alias, modelled as Nat. -/
inductive HandRank where
  | HighCard (i : Nat)
  | OnePair (i : Nat)
  | TwoPair (i : Nat)
  | ThreeOfAKind (i : Nat)
  | Straight (i : Nat)
  | Flush (i : Nat)
  | FullHouse (i : Nat)
  | FourOfAKind (i : Nat)
  | StraightFlush (i : Nat)
deriving DecidableEq

/-- HandRank::numeric from src/hand_rank.rs. -/
def HandRank.numeric : HandRank → Nat
  | HandRank.HighCard i => i
  | HandRank.OnePair i => i
  | HandRank.TwoPair i => i
  | HandRank.ThreeOfAKind i => i
  | HandRank.Straight i => i
  | HandRank.Flush i => i
  | HandRank.FullHouse i => i
  | HandRank.FourOfAKind i => i
  | HandRank.StraightFlush i => i

/-- The impl From of a numeric hand rank for HandRank (src/hand_rank.rs): the
threshold classification of a numeric value into a category. -/
def HandRank.fromNumeric (i : Nat) : HandRank :=
  if i > 6185 then HandRank.HighCard i
  else if i > 3325 then HandRank.OnePair i
  else if i > 2467 then HandRank.TwoPair i
  else if i > 1609 then HandRank.ThreeOfAKind i
  else if i > 1599 then HandRank.Straight i
  else if i > 322 then HandRank.Flush i
  else if i > 166 then HandRank.FullHouse i
  else if i > 10 then HandRank.FourOfAKind i
  else HandRank.StraightFlush i

/-- Claim C5: for every Rank r and Suit s, decoding the Card built by
Card::new(r, s) returns the original components exactly:
Card::new(r, s).rank() = r and Card::new(r, s).suit() = s. -/
theorem card_round_trip :
    ∀ (r : Rank) (s : Suit),
      Card.rank (Card.new r s) = some r ∧ Card.suit (Card.new r s) = some s := by
  intro r s
  cases r <;> cases s <;> decide

/-- Claim C3: for every Nat n in [1, 7462], the numeric-to-category
conversion assigns exactly the category of the fixed inclusive thresholds,
the carried payload equals n, and no value maps to two categories (each
biconditional pins the unique category of its range). -/
theorem hand_rank_from_numeric_thresholds (n : Nat)
    (hlo : 1 ≤ n) (hhi : n ≤ 7462) :
    (HandRank.fromNumeric n).numeric = n ∧
    ((HandRank.fromNumeric n = HandRank.HighCard n) ↔ 6185 < n) ∧
    ((HandRank.fromNumeric n = HandRank.OnePair n) ↔ (3326 ≤ n ∧ n ≤ 6185)) ∧
    ((HandRank.fromNumeric n = HandRank.TwoPair n) ↔ (2468 ≤ n ∧ n ≤ 3325)) ∧
    ((HandRank.fromNumeric n = HandRank.ThreeOfAKind n) ↔ (1610 ≤ n ∧ n ≤ 2467)) ∧
    ((HandRank.fromNumeric n = HandRank.Straight n) ↔ (1600 ≤ n ∧ n ≤ 1609)) ∧
    ((HandRank.fromNumeric n = HandRank.Flush n) ↔ (323 ≤ n ∧ n ≤ 1599)) ∧
    ((HandRank.fromNumeric n = HandRank.FullHouse n) ↔ (167 ≤ n ∧ n ≤ 322)) ∧
    ((HandRank.fromNumeric n = HandRank.FourOfAKind n) ↔ (11 ≤ n ∧ n ≤ 166)) ∧
    ((HandRank.fromNumeric n = HandRank.StraightFlush n) ↔ (1 ≤ n ∧ n ≤ 10)) := by
  unfold HandRank.fromNumeric
  split_ifs <;>
    refine ⟨rfl, ?_, ?_, ?_, ?_, ?_, ?_, ?_, ?_, ?_⟩ <;> simp <;> omega

/-- Witness for C3 at the concrete value 5000 (a OnePair value). -/
theorem hand_rank_from_numeric_thresholds_witness :
    (HandRank.fromNumeric 5000).numeric = 5000 ∧
    ((HandRank.fromNumeric 5000 = HandRank.HighCard 5000) ↔ 6185 < 5000) ∧
    ((HandRank.fromNumeric 5000 = HandRank.OnePair 5000) ↔ (3326 ≤ 5000 ∧ 5000 ≤ 6185)) ∧
    ((HandRank.fromNumeric 5000 = HandRank.TwoPair 5000) ↔ (2468 ≤ 5000 ∧ 5000 ≤ 3325)) ∧
    ((HandRank.fromNumeric 5000 = HandRank.ThreeOfAKind 5000) ↔ (1610 ≤ 5000 ∧ 5000 ≤ 2467)) ∧
    ((HandRank.fromNumeric 5000 = HandRank.Straight 5000) ↔ (1600 ≤ 5000 ∧ 5000 ≤ 1609)) ∧
    ((HandRank.fromNumeric 5000 = HandRank.Flush 5000) ↔ (323 ≤ 5000 ∧ 5000 ≤ 1599)) ∧
    ((HandRank.fromNumeric 5000 = HandRank.FullHouse 5000) ↔ (167 ≤ 5000 ∧ 5000 ≤ 322)) ∧
    ((HandRank.fromNumeric 5000 = HandRank.FourOfAKind 5000) ↔ (11 ≤ 5000 ∧ 5000 ≤ 166)) ∧
    ((HandRank.fromNumeric 5000 = HandRank.StraightFlush 5000) ↔ (1 ≤ 5000 ∧ 5000 ≤ 10)) :=
  hand_rank_from_numeric_thresholds 5000 (by decide) (by decide)

/-- Outcome of the binary-search loop of HandRank::find_value_index
(src/hand_rank.rs).  found i is a normal return of index i; panicNoMatch is
the source's explicit no-match panic after the loop; outOfBounds models the
index panic a read of PRODUCTS[mid] would raise when mid is outside 0..4887
(PRODUCTS has length 4888); underflow models the usize underflow of
high = mid - 1 when mid = 0. -/
inductive SearchResult where
  | found (i : Nat)
  | panicNoMatch
  | outOfBounds
  | underflow
deriving DecidableEq

/-- The while loop of HandRank::find_value_index from src/hand_rank.rs, with
the mutable state (low, high) as arguments: while low <= high, take
mid = (high + low) / 2 (the source shifts right by one, commented Divide by
two), move high = mid - 1 when q < PRODUCTS[mid], low = mid + 1 when
q > PRODUCTS[mid], else return mid.  The external PRODUCTS table is the
function argument products. -/
def findLoop (products : Nat → Nat) (q : Nat) (low high : Nat) : SearchResult :=
  if h : low ≤ high then
    if 4888 ≤ (high + low) / 2 then SearchResult.outOfBounds
    else if q < products ((high + low) / 2) then
      if hm : (high + low) / 2 = 0 then SearchResult.underflow
      else findLoop products q low ((high + low) / 2 - 1)
    else if products ((high + low) / 2) < q then
      findLoop products q ((high + low) / 2 + 1) high
    else SearchResult.found ((high + low) / 2)
  else SearchResult.panicNoMatch
termination_by high + 1 - low
decreasing_by
  all_goals omega

/-- HandRank::find_value_index from src/hand_rank.rs: the loop is entered
with low = 0 and high = 4888. -/
def find_value_index (products : Nat → Nat) (q : Nat) : SearchResult :=
  findLoop products q 0 4888

/-- Helper for C4: while the key q sits at index i inside the current search
window [low, high] (with i at most 4887 and high at most 4888), the loop
returns found i; it never reads out of bounds, never underflows, and never
reaches the no-match panic. -/
theorem findLoop_found (products : Nat → Nat) (q i : Nat)
    (hsorted : ∀ a b : Nat, a < b → b ≤ 4887 → products a < products b)
    (hi : i ≤ 4887) (hq : products i = q) :
    ∀ n low high, high - low ≤ n → low ≤ i → i ≤ high → high ≤ 4888 →
      findLoop products q low high = SearchResult.found i := by
  intro n
  induction n with
  | zero =>
    intro low high hn h1 h2 h3
    have hmi : (high + low) / 2 = i := by omega
    unfold findLoop
    rw [dif_pos (by omega : low ≤ high), if_neg (by omega : ¬ 4888 ≤ (high + low) / 2), hmi,
      hq, if_neg (lt_irrefl q), if_neg (lt_irrefl q)]
  | succ n ih =>
    intro low high hn h1 h2 h3
    have hmb : ¬ 4888 ≤ (high + low) / 2 := by omega
    unfold findLoop
    rw [dif_pos (by omega : low ≤ high), if_neg hmb]
    rcases Nat.lt_trichotomy q (products ((high + low) / 2)) with hlt | heq | hgt
    · have him : i < (high + low) / 2 := by
        by_contra hc
        push_neg at hc
        have hple : products ((high + low) / 2) ≤ products i := by
          rcases Nat.eq_or_lt_of_le hc with h' | h'
          · exact le_of_eq (congrArg products h')
          · exact le_of_lt (hsorted _ _ h' hi)
        rw [hq] at hple
        exact absurd (lt_of_lt_of_le hlt hple) (lt_irrefl q)
      rw [if_pos hlt, dif_neg (by omega : ¬ (high + low) / 2 = 0)]
      exact ih low ((high + low) / 2 - 1) (by omega) h1 (by omega) (by omega)
    · have hie : (high + low) / 2 = i := by
        by_contra hne
        rcases Nat.lt_or_ge ((high + low) / 2) i with h' | h'
        · have hlt2 := hsorted _ _ h' hi
          rw [hq, ← heq] at hlt2
          exact absurd hlt2 (lt_irrefl q)
        · have h'' : i < (high + low) / 2 := Nat.lt_of_le_of_ne h' (fun he => hne he.symm)
          have hlt2 := hsorted _ _ h'' (by omega)
          rw [hq, ← heq] at hlt2
          exact absurd hlt2 (lt_irrefl q)
      rw [if_neg (show ¬ q < products ((high + low) / 2) by rw [← heq]; exact lt_irrefl q),
        if_neg (show ¬ products ((high + low) / 2) < q by rw [← heq]; exact lt_irrefl q), hie]
    · have him : (high + low) / 2 < i := by
        by_contra hc
        push_neg at hc
        have hple : products i ≤ products ((high + low) / 2) := by
          rcases Nat.eq_or_lt_of_le hc with h' | h'
          · exact le_of_eq (congrArg products h')
          · exact le_of_lt (hsorted _ _ h' (by omega))
        rw [hq] at hple
        exact absurd (lt_of_le_of_lt hple hgt) (lt_irrefl q)
      rw [if_neg (not_lt.mpr (le_of_lt hgt)), if_pos hgt]
      exact ih ((high + low) / 2 + 1) high (by omega) (by omega) h2 h3

/-- Claim C4: under the precondition that PRODUCTS is strictly ascending on
its 4888 indices and the key q occurs in it at index i, find_value_index(q)
terminates (the model is a total function) and returns found i, the unique
index holding q; the found outcome excludes the out-of-bounds read, the
underflow of the index arithmetic and the no-match panic, which are the only
other outcomes the model can produce. -/
theorem find_value_index_finds_unique_index (products : Nat → Nat) (q i : Nat)
    (hsorted : ∀ a b : Nat, a < b → b ≤ 4887 → products a < products b)
    (hi : i ≤ 4887) (hq : products i = q) :
    find_value_index products q = SearchResult.found i ∧
    ∀ j, j ≤ 4887 → products j = q → j = i := by
  constructor
  · exact findLoop_found products q i hsorted hi hq 4888 0 4888
      (by omega) (Nat.zero_le i) (by omega) (by omega)
  · intro j hj hjq
    rcases Nat.lt_trichotomy j i with h' | h' | h'
    · have := hsorted _ _ h' hi
      rw [hjq, hq] at this
      exact absurd this (lt_irrefl q)
    · exact h'
    · have := hsorted _ _ h' hj
      rw [hjq, hq] at this
      exact absurd this (lt_irrefl q)

/-- Witness for C4: the strictly ascending table sending n to n + 1 holds the
key 100 at index 99, and the search finds exactly that index. -/
theorem find_value_index_finds_unique_index_witness :
    find_value_index (fun n => n + 1) 100 = SearchResult.found 99 ∧
    ∀ j, j ≤ 4887 → (fun n => n + 1) j = 100 → j = 99 :=
  find_value_index_finds_unique_index (fun n => n + 1) 100 99
    (fun a b hab _ => by simpa using hab) (by omega) rfl

/-- struct Hand([Card; 5]) from src/hand.rs: exactly five packed cards,
modelled as a function from Fin 5. -/
abbrev Hand := Fin 5 → Card

/-- Hand::cards from src/hand.rs. -/
def Hand.cards (h : Hand) : Fin 5 → Card := h

/-- Modelled from the spec: the external lookup_tables module (declared as
mod lookup_tables in src/lib.rs; its precomputed data is not part of the
source tree).  Per spec sections 3 and 6, FLUSHES and UNIQUES are read-only
integer-indexed arrays and PRODUCTS/VALUES are parallel arrays of length
4888; all four are abstracted as total functions, and the shape invariants
the spec states (notably that PRODUCTS is strictly ascending) appear as
hypotheses on the claims that need them. -/
structure Tables where
  flushes : Nat → Nat
  uniques : Nat → Nat
  products : Nat → Nat
  values : Nat → Nat

/-- The five-way bitwise or computed by HandRank::compute (src/hand_rank.rs):
card0 | card1 | card2 | card3 | card4. -/
def Hand.orBits (h : Hand) : Nat :=
  Card.as_int (Hand.cards h 0) ||| Card.as_int (Hand.cards h 1) |||
    Card.as_int (Hand.cards h 2) ||| Card.as_int (Hand.cards h 3) |||
    Card.as_int (Hand.cards h 4)

/-- The lookup_index of HandRank::compute: the or of the five packed cards,
shifted right by 16. -/
def Hand.lookup_index (h : Hand) : Nat := Hand.orBits h >>> 16

/-- The five-way bitwise and computed by HandRank::all_same_suit
(src/hand_rank.rs): card0 & card1 & card2 & card3 & card4. -/
def Hand.andBits (h : Hand) : Nat :=
  Card.as_int (Hand.cards h 0) &&& Card.as_int (Hand.cards h 1) &&&
    Card.as_int (Hand.cards h 2) &&& Card.as_int (Hand.cards h 3) &&&
    Card.as_int (Hand.cards h 4)

/-- HandRank::all_same_suit from src/hand_rank.rs:
card0 & card1 & card2 & card3 & card4 & 0xf000 != 0. -/
def HandRank.all_same_suit (h : Hand) : Bool :=
  Hand.andBits h &&& 0xf000 != 0

/-- u32 multiplication: the product reduced modulo 2 ^ 32 (Rust u32 wraps in
release mode; claim C10 shows the reduction is vacuous for encoder-produced
cards). -/
def mul32 (a b : Nat) : Nat := a * b % 2 ^ 32

/-- The prime product q of HandRank::compute (src/hand_rank.rs): the u32
product of the five low bytes (card & 0xFF), multiplied left to right. -/
def Hand.q (h : Hand) : Nat :=
  mul32 (mul32 (mul32 (mul32 (Card.as_int (Hand.cards h 0) &&& 0xFF)
    (Card.as_int (Hand.cards h 1) &&& 0xFF))
    (Card.as_int (Hand.cards h 2) &&& 0xFF))
    (Card.as_int (Hand.cards h 3) &&& 0xFF))
    (Card.as_int (Hand.cards h 4) &&& 0xFF)

/-- HandRank::compute from src/hand_rank.rs: flush hands are resolved by
FLUSHES[lookup_index]; otherwise UNIQUES[lookup_index] when nonzero;
otherwise the prime product is binary-searched in PRODUCTS and resolved by
VALUES at the found index.  A panic inside find_value_index propagates as
none.  Hand::rank (src/hand.rs) delegates to this function. -/
def HandRank.compute (T : Tables) (h : Hand) : Option HandRank :=
  if HandRank.all_same_suit h then
    some (HandRank.fromNumeric (T.flushes (Hand.lookup_index h)))
  else if T.uniques (Hand.lookup_index h) ≠ 0 then
    some (HandRank.fromNumeric (T.uniques (Hand.lookup_index h)))
  else
    match find_value_index T.products (Hand.q h) with
    | SearchResult.found idx => some (HandRank.fromNumeric (T.values idx))
    | _ => none

/-- Ord::cmp for Hand (src/hand.rs):
self.rank().numeric().cmp(other.rank().numeric()).  A panic during rank
evaluation propagates as none. -/
def Hand.cmp (T : Tables) (a b : Hand) : Option Ordering :=
  match HandRank.compute T a, HandRank.compute T b with
  | some ra, some rb => some (compare (HandRank.numeric ra) (HandRank.numeric rb))
  | _, _ => none

/-- PartialOrd::partial_cmp for Hand (src/hand.rs):
Some(self.cmp(other).reverse()), the source comment noting the reversal is
because smaller numeric ranks are greater value.  Rust Ordering::reverse is
Ordering.swap; the outer Option models panic propagation, the inner Option
is the Option of Rust partial_cmp. -/
def Hand.partial_cmp (T : Tables) (a b : Hand) : Option (Option Ordering) :=
  Option.map (fun o => some (Ordering.swap o)) (Hand.cmp T a b)

/-- Rust core::cmp::max semantics (used by Ord::max, std::cmp::max and
Iterator::max, the idiomatic max the spec appeals to; standard library
behaviour, not crate code): the second argument unless the comparison of the
first with the second returns Greater. -/
def Hand.maxByOrd (T : Tables) (a b : Hand) : Option Hand :=
  match Hand.cmp T a b with
  | some Ordering.gt => some a
  | some _ => some b
  | none => none

/-- Builds the Hand holding the five given cards in order. -/
def mkHand (c0 c1 c2 c3 c4 : Card) : Hand := fun i =>
  if i.val = 0 then c0
  else if i.val = 1 then c1
  else if i.val = 2 then c2
  else if i.val = 3 then c3
  else c4

/-- Concrete stand-in for the external tables: every flush mask resolves to 9
and every uniques mask to 1601, the numeric ranks the spec's test scenarios
assign to the two concrete hands below; PRODUCTS is a strictly ascending
placeholder. -/
def demoTables : Tables where
  flushes := fun _ => 9
  uniques := fun _ => 1601
  products := fun n => n + 1
  values := fun _ => 0

/-- The straight-flush hand of the source tests: 2, 3, 4, 5, 6 of Hearts. -/
def flushHand : Hand :=
  mkHand (Card.new Rank.Two Suit.Hearts) (Card.new Rank.Three Suit.Hearts)
    (Card.new Rank.Four Suit.Hearts) (Card.new Rank.Five Suit.Hearts)
    (Card.new Rank.Six Suit.Hearts)

/-- The straight hand of the source tests: K Spades, Q Clubs, J 10 9 Hearts. -/
def straightHand : Hand :=
  mkHand (Card.new Rank.King Suit.Spades) (Card.new Rank.Queen Suit.Clubs)
    (Card.new Rank.Jack Suit.Hearts) (Card.new Rank.Ten Suit.Hearts)
    (Card.new Rank.Nine Suit.Hearts)

/-- Claim C2: Hand partial_cmp always returns Some of the reverse of Hand
cmp; cmp orders Hands by ascending numeric rank (the stronger hand is
Ord-less), and for Hands of unequal strength cmp and partial_cmp report
opposite orderings (the reported ordering differs from its own reverse). -/
theorem hand_partial_cmp_reverses_cmp (T : Tables) (a b : Hand) (ra rb : HandRank)
    (ha : HandRank.compute T a = some ra) (hb : HandRank.compute T b = some rb) :
    Hand.cmp T a b = some (compare (HandRank.numeric ra) (HandRank.numeric rb)) ∧
    Hand.partial_cmp T a b =
      some (some (Ordering.swap (compare (HandRank.numeric ra) (HandRank.numeric rb)))) ∧
    (HandRank.numeric ra < HandRank.numeric rb →
      Hand.cmp T a b = some Ordering.lt ∧ Hand.partial_cmp T a b = some (some Ordering.gt)) ∧
    (HandRank.numeric ra ≠ HandRank.numeric rb →
      ∀ o, Hand.cmp T a b = some o → Ordering.swap o ≠ o) := by
  have hc : Hand.cmp T a b = some (compare (HandRank.numeric ra) (HandRank.numeric rb)) := by
    unfold Hand.cmp
    rw [ha, hb]
  refine ⟨hc, ?_, ?_, ?_⟩
  · unfold Hand.partial_cmp
    rw [hc]
    rfl
  · intro hlt
    have hcmp : compare (HandRank.numeric ra) (HandRank.numeric rb) = Ordering.lt :=
      Nat.compare_eq_lt.mpr hlt
    refine ⟨by rw [hc, hcmp], ?_⟩
    unfold Hand.partial_cmp
    rw [hc, hcmp]
    rfl
  · intro hne o ho
    rw [hc] at ho
    injection ho with ho
    rcases Nat.lt_trichotomy (HandRank.numeric ra) (HandRank.numeric rb) with h' | h' | h'
    · rw [← ho, Nat.compare_eq_lt.mpr h']
      decide
    · exact absurd h' hne
    · rw [← ho, Nat.compare_eq_gt.mpr h']
      decide

/-- Witness for C2 on the two concrete source-test hands under demoTables:
the flush hand evaluates to numeric 9, the straight hand to 1601. -/
theorem hand_partial_cmp_reverses_cmp_witness :
    Hand.cmp demoTables flushHand straightHand =
      some (compare (HandRank.numeric (HandRank.StraightFlush 9))
        (HandRank.numeric (HandRank.Straight 1601))) ∧
    Hand.partial_cmp demoTables flushHand straightHand =
      some (some (Ordering.swap (compare (HandRank.numeric (HandRank.StraightFlush 9))
        (HandRank.numeric (HandRank.Straight 1601))))) ∧
    (HandRank.numeric (HandRank.StraightFlush 9) < HandRank.numeric (HandRank.Straight 1601) →
      Hand.cmp demoTables flushHand straightHand = some Ordering.lt ∧
      Hand.partial_cmp demoTables flushHand straightHand = some (some Ordering.gt)) ∧
    (HandRank.numeric (HandRank.StraightFlush 9) ≠ HandRank.numeric (HandRank.Straight 1601) →
      ∀ o, Hand.cmp demoTables flushHand straightHand = some o → Ordering.swap o ≠ o) :=
  hand_partial_cmp_reverses_cmp demoTables flushHand straightHand
    (HandRank.StraightFlush 9) (HandRank.Straight 1601) (by decide) (by decide)

/-- Claim C1 (refuting evidence): the flush hand evaluates to numeric rank 9
and the straight hand to 1601, so the flush hand is strictly stronger; yet
Ord::cmp reports Less for the stronger hand (only partial_cmp is reversed),
so the Ord-based idiomatic max selects the hand of numeric rank 1601 — the
losing hand — where the spec requires the stronger hand to compare greater
and be selected. -/
theorem hand_ord_cmp_selects_losing_hand :
    HandRank.compute demoTables flushHand = some (HandRank.StraightFlush 9) ∧
    HandRank.compute demoTables straightHand = some (HandRank.Straight 1601) ∧
    (9 : Nat) < 1601 ∧
    Hand.cmp demoTables flushHand straightHand = some Ordering.lt ∧
    Hand.partial_cmp demoTables flushHand straightHand = some (some Ordering.gt) ∧
    Option.bind (Hand.maxByOrd demoTables flushHand straightHand)
      (HandRank.compute demoTables) = some (HandRank.Straight 1601) := by
  refine ⟨by decide, by decide, by decide, by decide, by decide, ?_⟩
  decide

/-- Every encoder-produced card value fits in 29 bits: the rank-presence bit
at 16 + order (order at most 12) is the highest bit set. -/
theorem card_new_lt (r : Rank) (s : Suit) : Card.new r s < 2 ^ 29 := by
  cases r <;> cases s <;> decide

/-- Every order encoding is one of the 13 bit positions 0..12. -/
theorem order_encoding_lt_13 (r : Rank) : Rank.order_encoding r < 13 := by
  cases r <;> decide

/-- Bit 16 + b of an encoder-produced card (for b below 13) is set exactly
when b is the order encoding of the card's rank. -/
theorem card_new_testBit_order (r : Rank) (s : Suit) (b : Nat) (hb : b < 13) :
    Nat.testBit (Card.new r s) (16 + b) = decide (b = Rank.order_encoding r) := by
  have h13 : ∀ c : Fin 13,
      Nat.testBit (Card.new r s) (16 + c.val) = decide (c.val = Rank.order_encoding r) := by
    cases r <;> cases s <;> decide
  exact h13 ⟨b, hb⟩

/-- The array [Card; 5] built from five ranks and five suits through
Card::new. -/
def handOf (r : Fin 5 → Rank) (s : Fin 5 → Suit) : Hand := fun i => Card.new (r i) (s i)

/-- Claim C6: for every five cards produced by Card::new, the evaluator's
lookup_index (the or of the five packed cards shifted right by 16) is a
13-bit value whose set bits are exactly the order encodings of the ranks
present among the five cards; duplicate ranks collapse to a single set bit
(the right side is mere membership, indifferent to multiplicity). -/
theorem lookup_index_rank_presence_mask (r : Fin 5 → Rank) (s : Fin 5 → Suit) :
    Hand.lookup_index (handOf r s) < 8192 ∧
    ∀ b : Nat, (Nat.testBit (Hand.lookup_index (handOf r s)) b = true ↔
      ∃ i : Fin 5, Rank.order_encoding (r i) = b) := by
  have hcardlt : ∀ i : Fin 5, Card.as_int (Hand.cards (handOf r s) i) < 2 ^ 29 :=
    fun i => card_new_lt (r i) (s i)
  have horlt : Hand.orBits (handOf r s) < 2 ^ 29 := by
    unfold Hand.orBits
    exact Nat.or_lt_two_pow (Nat.or_lt_two_pow (Nat.or_lt_two_pow
      (Nat.or_lt_two_pow (hcardlt 0) (hcardlt 1)) (hcardlt 2)) (hcardlt 3)) (hcardlt 4)
  have hmasklt : Hand.lookup_index (handOf r s) < 8192 := by
    unfold Hand.lookup_index
    rw [Nat.shiftRight_eq_div_pow]
    exact (Nat.div_lt_iff_lt_mul (by norm_num)).mpr (lt_of_lt_of_le horlt (by norm_num))
  refine ⟨hmasklt, ?_⟩
  intro b
  by_cases hb : b < 13
  · have hbit : ∀ i : Fin 5, Nat.testBit (Card.as_int (Hand.cards (handOf r s) i)) (16 + b) =
        decide (b = Rank.order_encoding (r i)) :=
      fun i => card_new_testBit_order (r i) (s i) b hb
    unfold Hand.lookup_index Hand.orBits
    rw [Nat.testBit_shiftRight]
    simp only [Nat.testBit_or]
    rw [hbit 0, hbit 1, hbit 2, hbit 3, hbit 4]
    simp only [Bool.or_eq_true, decide_eq_true_eq]
    constructor
    · rintro ((((h | h) | h) | h) | h)
      · exact ⟨0, h.symm⟩
      · exact ⟨1, h.symm⟩
      · exact ⟨2, h.symm⟩
      · exact ⟨3, h.symm⟩
      · exact ⟨4, h.symm⟩
    · rintro ⟨i, hi⟩
      fin_cases i
      · exact Or.inl (Or.inl (Or.inl (Or.inl hi.symm)))
      · exact Or.inl (Or.inl (Or.inl (Or.inr hi.symm)))
      · exact Or.inl (Or.inl (Or.inr hi.symm))
      · exact Or.inl (Or.inr hi.symm)
      · exact Or.inr hi.symm
  · have hpow : (8192 : Nat) ≤ 2 ^ b := by
      calc (8192 : Nat) = 2 ^ 13 := by norm_num
        _ ≤ 2 ^ b := Nat.pow_le_pow_right (by norm_num) (by omega)
    have hL : Nat.testBit (Hand.lookup_index (handOf r s)) b = false :=
      Nat.testBit_lt_two_pow (lt_of_lt_of_le hmasklt hpow)
    rw [hL]
    simp only [Bool.false_eq_true, false_iff]
    rintro ⟨i, hi⟩
    have := order_encoding_lt_13 (r i)
    omega

/-- The bits of the mask 0xf000 are exactly positions 12 to 15. -/
theorem testBit_0xf000 (u : Nat) : Nat.testBit 0xf000 u = decide (12 ≤ u ∧ u < 16) := by
  by_cases h : u < 16
  · have h16 : ∀ c : Fin 16, Nat.testBit 0xf000 c.val = decide (12 ≤ c.val ∧ c.val < 16) := by
      decide
    exact h16 ⟨u, h⟩
  · have hp : (2 : Nat) ^ 16 ≤ 2 ^ u := Nat.pow_le_pow_right (by norm_num) (by omega)
    have hlt : (0xf000 : Nat) < 2 ^ u := lt_of_lt_of_le (by norm_num) hp
    rw [Nat.testBit_lt_two_pow hlt]
    exact (decide_eq_false (by omega)).symm

/-- Within the suit nibble (bits 12 to 15), an encoder-produced card agrees
bit for bit with the one-hot suit_bits value of its suit. -/
theorem card_new_testBit_suit (r : Rank) (s : Suit) (b : Nat)
    (h1 : 12 ≤ b) (h2 : b < 16) :
    Nat.testBit (Card.new r s) b = Nat.testBit (Card.suit_bits s) b := by
  have h4 : ∀ c : Fin 4, Nat.testBit (Card.new r s) (12 + c.val) =
      Nat.testBit (Card.suit_bits s) (12 + c.val) := by
    cases r <;> cases s <;> decide
  have hb : 12 + (b - 12) = b := by omega
  rw [← hb]
  exact h4 ⟨b - 12, by omega⟩

/-- Two suits sharing a set bit inside the suit nibble are equal (the four
suit_bits values are mutually exclusive one-hot nibbles). -/
theorem suit_bits_testBit_inj (s1 s2 : Suit) (b : Nat) (h1 : 12 ≤ b) (h2 : b < 16)
    (ha : Nat.testBit (Card.suit_bits s1) b = true)
    (hb : Nat.testBit (Card.suit_bits s2) b = true) : s1 = s2 := by
  have h4 : ∀ c : Fin 4, Nat.testBit (Card.suit_bits s1) (12 + c.val) = true →
      Nat.testBit (Card.suit_bits s2) (12 + c.val) = true → s1 = s2 := by
    cases s1 <;> cases s2 <;> decide
  have heq : 12 + (b - 12) = b := by omega
  exact h4 ⟨b - 12, by omega⟩ (by rw [heq]; exact ha) (by rw [heq]; exact hb)

/-- Every suit_bits value has a set bit inside the suit nibble. -/
theorem suit_bits_exists_testBit (s : Suit) :
    ∃ c : Fin 4, Nat.testBit (Card.suit_bits s) (12 + c.val) = true := by
  cases s
  · exact ⟨1, by decide⟩
  · exact ⟨2, by decide⟩
  · exact ⟨0, by decide⟩
  · exact ⟨3, by decide⟩

/-- Claim C7: for every five cards produced by Card::new, all_same_suit
returns true exactly when all five cards have the same Suit: the bitwise and
of the five packed integers masked with 0xF000 is nonzero precisely when the
five one-hot suit nibbles coincide. -/
theorem all_same_suit_iff_same_suits (r : Fin 5 → Rank) (s : Fin 5 → Suit) :
    HandRank.all_same_suit (handOf r s) = true ↔ ∀ i : Fin 5, s i = s 0 := by
  unfold HandRank.all_same_suit
  rw [bne_iff_ne]
  constructor
  · intro hne
    obtain ⟨u, hu⟩ := Nat.ne_zero_implies_bit_true hne
    rw [Nat.testBit_and, Bool.and_eq_true] at hu
    obtain ⟨hand5, hmask⟩ := hu
    rw [testBit_0xf000, decide_eq_true_eq] at hmask
    obtain ⟨h1, h2⟩ := hmask
    have hsuit : ∀ i : Fin 5, Nat.testBit (Card.as_int (Hand.cards (handOf r s) i)) u =
        Nat.testBit (Card.suit_bits (s i)) u :=
      fun i => card_new_testBit_suit (r i) (s i) u h1 h2
    unfold Hand.andBits at hand5
    simp only [Nat.testBit_and, Bool.and_eq_true] at hand5
    obtain ⟨⟨⟨⟨h0, hA⟩, hB⟩, hC⟩, hD⟩ := hand5
    rw [hsuit 0] at h0
    rw [hsuit 1] at hA
    rw [hsuit 2] at hB
    rw [hsuit 3] at hC
    rw [hsuit 4] at hD
    intro i
    fin_cases i
    · rfl
    · exact suit_bits_testBit_inj (s 1) (s 0) u h1 h2 hA h0
    · exact suit_bits_testBit_inj (s 2) (s 0) u h1 h2 hB h0
    · exact suit_bits_testBit_inj (s 3) (s 0) u h1 h2 hC h0
    · exact suit_bits_testBit_inj (s 4) (s 0) u h1 h2 hD h0
  · intro hall h0x
    obtain ⟨c, hc⟩ := suit_bits_exists_testBit (s 0)
    have hcv := c.isLt
    have h1 : 12 ≤ 12 + c.val := by omega
    have h2 : 12 + c.val < 16 := by omega
    have hbit : Nat.testBit (Hand.andBits (handOf r s) &&& 0xf000) (12 + c.val) = true := by
      rw [Nat.testBit_and]
      have hmask : Nat.testBit 0xf000 (12 + c.val) = true := by
        rw [testBit_0xf000]
        exact decide_eq_true (by omega)
      have hsuit : ∀ i : Fin 5, Nat.testBit (Card.as_int (Hand.cards (handOf r s) i)) (12 + c.val) =
          Nat.testBit (Card.suit_bits (s i)) (12 + c.val) :=
        fun i => card_new_testBit_suit (r i) (s i) _ h1 h2
      unfold Hand.andBits
      simp only [Nat.testBit_and]
      rw [hsuit 0, hsuit 1, hsuit 2, hsuit 3, hsuit 4,
        hall 1, hall 2, hall 3, hall 4, hc, hmask]
      rfl
    rw [h0x, Nat.zero_testBit] at hbit
    exact Bool.false_ne_true hbit

/-- The multiset of the five packed card values of a Hand. -/
def cardsMultiset (h : Hand) : Multiset Nat :=
  Multiset.map (fun i => Card.as_int (Hand.cards h i)) Finset.univ.val

/-- A permutation of Fin 5 maps the universe multiset to itself. -/
theorem map_perm_univ (σ : Equiv.Perm (Fin 5)) :
    Multiset.map (⇑σ) (Finset.univ.val : Multiset (Fin 5)) = Finset.univ.val := by
  simpa using congrArg Finset.val (Finset.map_univ_equiv σ)

/-- Permuting the positions of a Hand leaves its multiset of card values
unchanged. -/
theorem cardsMultiset_perm (h : Hand) (σ : Equiv.Perm (Fin 5)) :
    cardsMultiset (fun i => h (σ i)) = cardsMultiset h := by
  unfold cardsMultiset
  have hcomp : (fun i => Card.as_int (Hand.cards (fun j => h (σ j)) i)) =
      (fun i => Card.as_int (Hand.cards h i)) ∘ ⇑σ := rfl
  rw [hcomp, ← Multiset.map_map, map_perm_univ]

/-- The five cards of a Hand, as an explicit multiset literal. -/
theorem cardsMultiset_explicit (h : Hand) :
    cardsMultiset h = (Card.as_int (Hand.cards h 0) ::ₘ Card.as_int (Hand.cards h 1) ::ₘ
      Card.as_int (Hand.cards h 2) ::ₘ Card.as_int (Hand.cards h 3) ::ₘ
      Card.as_int (Hand.cards h 4) ::ₘ 0) := by
  have huniv : (Finset.univ.val : Multiset (Fin 5)) =
      ((0 : Fin 5) ::ₘ (1 : Fin 5) ::ₘ (2 : Fin 5) ::ₘ (3 : Fin 5) ::ₘ (4 : Fin 5) ::ₘ 0) := by
    decide
  rw [cardsMultiset, huniv]
  simp only [Multiset.map_cons, Multiset.map_zero]

/-- Each bit of orBits is the unordered disjunction of that bit over the five
cards. -/
theorem orBits_testBit (h : Hand) (b : Nat) :
    Nat.testBit (Hand.orBits h) b =
      Multiset.fold (· || ·) false
        (Multiset.map (fun c => Nat.testBit c b) (cardsMultiset h)) := by
  rw [cardsMultiset_explicit]
  simp only [Multiset.map_cons, Multiset.map_zero, Multiset.fold_cons_left, Multiset.fold_zero]
  unfold Hand.orBits
  simp only [Nat.testBit_or, Bool.or_false, Bool.or_assoc]

/-- orBits is invariant under permuting the positions of the Hand. -/
theorem orBits_perm (h : Hand) (σ : Equiv.Perm (Fin 5)) :
    Hand.orBits (fun i => h (σ i)) = Hand.orBits h := by
  apply Nat.eq_of_testBit_eq
  intro b
  rw [orBits_testBit, orBits_testBit, cardsMultiset_perm]

/-- Each bit of andBits is the unordered conjunction of that bit over the
five cards. -/
theorem andBits_testBit (h : Hand) (b : Nat) :
    Nat.testBit (Hand.andBits h) b =
      Multiset.fold (· && ·) true
        (Multiset.map (fun c => Nat.testBit c b) (cardsMultiset h)) := by
  rw [cardsMultiset_explicit]
  simp only [Multiset.map_cons, Multiset.map_zero, Multiset.fold_cons_left, Multiset.fold_zero]
  unfold Hand.andBits
  simp only [Nat.testBit_and, Bool.and_true, Bool.and_assoc]

/-- andBits is invariant under permuting the positions of the Hand. -/
theorem andBits_perm (h : Hand) (σ : Equiv.Perm (Fin 5)) :
    Hand.andBits (fun i => h (σ i)) = Hand.andBits h := by
  apply Nat.eq_of_testBit_eq
  intro b
  rw [andBits_testBit, andBits_testBit, cardsMultiset_perm]

/-- The machine prime product q equals the unordered product of the five low
bytes, reduced modulo 2 ^ 32. -/
theorem q_eq_prod (h : Hand) :
    Hand.q h = (Multiset.map (fun c => c &&& 0xFF) (cardsMultiset h)).prod % 2 ^ 32 := by
  rw [cardsMultiset_explicit]
  simp only [Multiset.map_cons, Multiset.map_zero, Multiset.prod_cons, Multiset.prod_zero,
    mul_one]
  unfold Hand.q mul32
  generalize (Card.as_int (Hand.cards h 0) &&& 0xFF) = a
  generalize (Card.as_int (Hand.cards h 1) &&& 0xFF) = b
  generalize (Card.as_int (Hand.cards h 2) &&& 0xFF) = c
  generalize (Card.as_int (Hand.cards h 3) &&& 0xFF) = d
  generalize (Card.as_int (Hand.cards h 4) &&& 0xFF) = e
  rw [@Nat.mod_mul_mod (a * b) c (2 ^ 32), @Nat.mod_mul_mod (a * b * c) d (2 ^ 32),
    @Nat.mod_mul_mod (a * b * c * d) e (2 ^ 32)]
  congr 1
  ring

/-- q is invariant under permuting the positions of the Hand. -/
theorem q_perm (h : Hand) (σ : Equiv.Perm (Fin 5)) :
    Hand.q (fun i => h (σ i)) = Hand.q h := by
  rw [q_eq_prod, q_eq_prod, cardsMultiset_perm]

/-- Claim C8: for every array of five cards and every permutation of its
positions, HandRank::compute on the permuted Hand yields the same result as
on the original: the flush test, the rank-presence mask and the prime
product all depend only on the multiset of the five cards.  This holds for
every table assignment. -/
theorem compute_permutation_invariant (T : Tables) (h : Hand) (σ : Equiv.Perm (Fin 5)) :
    HandRank.compute T (fun i => h (σ i)) = HandRank.compute T h := by
  unfold HandRank.compute HandRank.all_same_suit Hand.lookup_index
  rw [orBits_perm, andBits_perm, q_perm]

/-- The prime encoding is injective on the thirteen ranks. -/
theorem prime_encoding_injective : Function.Injective Rank.prime_encoding := by
  intro a b
  cases a <;> cases b <;> decide

/-- Every prime encoding value is a prime number. -/
theorem prime_encoding_prime (r : Rank) : Nat.Prime (Rank.prime_encoding r) := by
  cases r <;> norm_num [Rank.prime_encoding]

/-- Two multisets of prime numbers with the same product are equal
(uniqueness of prime factorisation, multiset form). -/
theorem multiset_prime_prod_eq : ∀ (s t : Multiset Nat), (∀ p ∈ s, Nat.Prime p) →
    (∀ p ∈ t, Nat.Prime p) → s.prod = t.prod → s = t := by
  intro s
  induction s using Multiset.induction with
  | empty =>
    intro t _ ht h
    rw [Multiset.prod_zero] at h
    by_contra hne
    obtain ⟨a, ha⟩ := Multiset.exists_mem_of_ne_zero (Ne.symm hne)
    have hdvd : a ∣ t.prod := Multiset.dvd_prod ha
    rw [← h] at hdvd
    have hle := Nat.le_of_dvd one_pos hdvd
    have htwo := (ht a ha).two_le
    omega
  | cons a s' ih =>
    intro t hs ht h
    have hpa : Nat.Prime a := hs a (Multiset.mem_cons_self a s')
    have hdvd : a ∣ t.prod := by
      rw [← h, Multiset.prod_cons]
      exact dvd_mul_right a s'.prod
    obtain ⟨b, hbt, hab⟩ := (Nat.Prime.prime hpa).exists_mem_multiset_dvd hdvd
    have hpb : Nat.Prime b := ht b hbt
    have hab' : a = b := (Nat.prime_dvd_prime_iff_eq hpa hpb).mp hab
    subst hab'
    have hte : t = a ::ₘ t.erase a := (Multiset.cons_erase hbt).symm
    rw [hte, Multiset.prod_cons, Multiset.prod_cons] at h
    have hcancel : s'.prod = (t.erase a).prod :=
      Nat.eq_of_mul_eq_mul_left (lt_of_lt_of_le two_pos hpa.two_le) h
    have hs' : ∀ p ∈ s', Nat.Prime p := fun p hp => hs p (Multiset.mem_cons_of_mem hp)
    have hterase : ∀ p ∈ t.erase a, Nat.Prime p :=
      fun p hp => ht p (Multiset.mem_of_mem_erase hp)
    rw [hte, ih (t.erase a) hs' hterase hcancel]

/-- Claim C9: distinct size-5 multisets of Ranks have distinct prime
products under the prime encoding (2, 3, 5, ..., 41 for Two through Ace):
the rank-multiset-to-prime-product map is injective, so the prime-product
lookup path has no false collisions. -/
theorem prime_products_distinct (m1 m2 : Multiset Rank)
    (h1 : Multiset.card m1 = 5) (h2 : Multiset.card m2 = 5) (hne : m1 ≠ m2) :
    (Multiset.map Rank.prime_encoding m1).prod ≠
      (Multiset.map Rank.prime_encoding m2).prod := by
  intro hprod
  apply hne
  have hprimes1 : ∀ p ∈ Multiset.map Rank.prime_encoding m1, Nat.Prime p := by
    intro p hp
    obtain ⟨r, _, hr⟩ := Multiset.mem_map.mp hp
    rw [← hr]
    exact prime_encoding_prime r
  have hprimes2 : ∀ p ∈ Multiset.map Rank.prime_encoding m2, Nat.Prime p := by
    intro p hp
    obtain ⟨r, _, hr⟩ := Multiset.mem_map.mp hp
    rw [← hr]
    exact prime_encoding_prime r
  exact Multiset.map_injective prime_encoding_injective
    (multiset_prime_prod_eq _ _ hprimes1 hprimes2 hprod)

/-- A four-of-a-kind rank multiset: 2 2 2 2 3. -/
def rankMultisetA : Multiset Rank :=
  Rank.Two ::ₘ Rank.Two ::ₘ Rank.Two ::ₘ Rank.Two ::ₘ Rank.Three ::ₘ 0

/-- A full-house rank multiset: 2 2 2 3 3. -/
def rankMultisetB : Multiset Rank :=
  Rank.Two ::ₘ Rank.Two ::ₘ Rank.Two ::ₘ Rank.Three ::ₘ Rank.Three ::ₘ 0

/-- Witness for C9: the quads multiset 2 2 2 2 3 and the full-house multiset
2 2 2 3 3 receive different prime products (48 and 72). -/
theorem prime_products_distinct_witness :
    (Multiset.map Rank.prime_encoding rankMultisetA).prod ≠
      (Multiset.map Rank.prime_encoding rankMultisetB).prod :=
  prime_products_distinct rankMultisetA rankMultisetB (by decide) (by decide) (by decide)

/-- The low byte of an encoder-produced card is the prime encoding of its
rank. -/
theorem card_new_low_byte (r : Rank) (s : Suit) :
    Card.new r s &&& 0xFF = Rank.prime_encoding r := by
  cases r <;> cases s <;> decide

/-- Every prime encoding is at most 41 (the encoding of the Ace). -/
theorem prime_encoding_le_41 (r : Rank) : Rank.prime_encoding r ≤ 41 := by
  cases r <;> decide

/-- Claim C10: for five cards produced by Card::new, the u32 prime product q
never wraps: each low byte is a prime at most 41, the exact product is at
most 41 ^ 5 which is below 2 ^ 32, and the machine product equals the exact
mathematical product of the five prime encodings. -/
theorem prime_product_no_overflow (r : Fin 5 → Rank) (s : Fin 5 → Suit) :
    Hand.q (handOf r s) =
      Rank.prime_encoding (r 0) * Rank.prime_encoding (r 1) * Rank.prime_encoding (r 2) *
        Rank.prime_encoding (r 3) * Rank.prime_encoding (r 4) ∧
    Rank.prime_encoding (r 0) * Rank.prime_encoding (r 1) * Rank.prime_encoding (r 2) *
        Rank.prime_encoding (r 3) * Rank.prime_encoding (r 4) ≤ 41 ^ 5 ∧
    (41 : Nat) ^ 5 < 2 ^ 32 := by
  have hlow : ∀ i : Fin 5, Card.as_int (Hand.cards (handOf r s) i) &&& 0xFF =
      Rank.prime_encoding (r i) := fun i => card_new_low_byte (r i) (s i)
  have hle : ∀ i : Fin 5, Rank.prime_encoding (r i) ≤ 41 :=
    fun i => prime_encoding_le_41 (r i)
  have hbound : Rank.prime_encoding (r 0) * Rank.prime_encoding (r 1) *
      Rank.prime_encoding (r 2) * Rank.prime_encoding (r 3) * Rank.prime_encoding (r 4) ≤
      41 ^ 5 := by
    calc Rank.prime_encoding (r 0) * Rank.prime_encoding (r 1) * Rank.prime_encoding (r 2) *
        Rank.prime_encoding (r 3) * Rank.prime_encoding (r 4) ≤ 41 * 41 * 41 * 41 * 41 :=
          Nat.mul_le_mul (Nat.mul_le_mul (Nat.mul_le_mul
            (Nat.mul_le_mul (hle 0) (hle 1)) (hle 2)) (hle 3)) (hle 4)
      _ = 41 ^ 5 := by norm_num
  refine ⟨?_, hbound, by norm_num⟩
  unfold Hand.q mul32
  rw [hlow 0, hlow 1, hlow 2, hlow 3, hlow 4]
  rw [@Nat.mod_mul_mod (Rank.prime_encoding (r 0) * Rank.prime_encoding (r 1))
      (Rank.prime_encoding (r 2)) (2 ^ 32),
    @Nat.mod_mul_mod (Rank.prime_encoding (r 0) * Rank.prime_encoding (r 1) *
      Rank.prime_encoding (r 2)) (Rank.prime_encoding (r 3)) (2 ^ 32),
    @Nat.mod_mul_mod (Rank.prime_encoding (r 0) * Rank.prime_encoding (r 1) *
      Rank.prime_encoding (r 2) * Rank.prime_encoding (r 3)) (Rank.prime_encoding (r 4))
      (2 ^ 32)]
  exact Nat.mod_eq_of_lt (lt_of_le_of_lt hbound (by norm_num))
